import Mathlib

/-!
Shallow embedding of the DPLL SAT solver in `dpll_sat.py` (classes `Clause`
and `CNF`) and of the DIMACS parser in `parse_dimacs.py`.

A literal is a signed integer (`ℤ`); a `Clause` holds a Python `set` of
literals, modelled as `Finset ℤ`; a `CNF` holds a Python `set` of clauses,
modelled as `Finset (Finset ℤ)`.  Python set iteration order and
`random.choice` are modelled by quantifying over an arbitrary choice
structure `Pick` whose fields may return any member of their argument set.
-/

namespace DpllSat

/-- A clause: Python `Clause.literals`, a set of integer literals. -/
abbrev Clause : Type := Finset ℤ

/-- A formula: Python `CNF.clauses`, a set of clauses. -/
abbrev CNF : Type := Finset Clause

/-- `CNF.get_literals`: the union of the literal sets of all clauses. -/
def lits (F : CNF) : Finset ℤ := F.sup id

/-- The set of variables (absolute values of literals) of a formula. -/
def vars (F : CNF) : Finset ℕ := (lits F).image Int.natAbs

/-- `CNF.add_literal`: a new formula holding a copy of every clause of `F`
plus the unit clause containing `l`. -/
def addLiteral (F : CNF) (l : ℤ) : CNF := insert {l} F

/-- `CNF.is_sat`: the clause set is empty. -/
def isSat (F : CNF) : Bool := F = ∅

/-- `CNF.is_unsat`: some clause has length 0. -/
def isUnsat (F : CNF) : Bool := decide (∃ c ∈ F, c.card = 0)

/-- The unit clauses of a formula: Python
`[c for c in self.clauses if len(c) == 1]` (as a set). -/
def unitClauses (F : CNF) : CNF := F.filter (fun c => c.card = 1)

/-- The state rewrite performed by `CNF.apply_unit` once a unit literal `u`
has been selected: every clause containing `u` is dropped (this includes the
selected unit clause itself), and `-u` is removed from every remaining
clause.  Python builds `new_clauses` as a set, so clauses that become equal
after simplification are merged; `Finset.image` does the same. -/
def propagate (F : CNF) (u : ℤ) : CNF :=
  (F.filter (fun c => u ∉ c)).image (fun c => c.erase (-u))

/-- `CNF.get_literals()` restricted to pure literals: Python
`{l for l in all_literals if -l not in all_literals}`. -/
def pureSet (F : CNF) : Finset ℤ := (lits F).filter (fun l => -l ∉ lits F)

/-- `CNF.apply_pure`: removes every clause whose literal set meets the pure
set, and reports whether any clause was removed.  The pair is (return value,
new value of `self.clauses`). -/
def applyPure (F : CNF) : Bool × CNF :=
  if pureSet F = ∅ then (false, F)
  else
    let keep := F.filter (fun c => c ∩ pureSet F = ∅)
    (decide (keep.card < F.card), keep)

/-- The two arbitrary choices the Python code makes: `apply_unit` takes the
first unit clause in set iteration order, and `apply_split` takes a literal
with `random.choice`.  `unitLit` returns the sole literal of one of the unit
clauses handed to it, `splitLit` returns a member of the literal set handed
to it; any function with these properties is a faithful model of one run. -/
structure Pick where
  unitLit : CNF → ℤ
  splitLit : Finset ℤ → ℤ
  unitLit_mem : ∀ s : CNF, s.Nonempty → (∀ c ∈ s, c.card = 1) →
    ({unitLit s} : Finset ℤ) ∈ s
  splitLit_mem : ∀ s : Finset ℤ, s.Nonempty → splitLit s ∈ s

/-- `CNF.apply_unit`: if there is no unit clause, return `False` and leave
the clause set alone; otherwise select a unit clause, and propagate its sole
literal.  The pair is (return value, new value of `self.clauses`). -/
def applyUnit (p : Pick) (F : CNF) : Bool × CNF :=
  if unitClauses F = ∅ then (false, F)
  else (true, propagate F (p.unitLit (unitClauses F)))

theorem mem_lits {F : CNF} {l : ℤ} : l ∈ lits F ↔ ∃ c ∈ F, l ∈ c := by
  simp [lits, Finset.mem_sup]

theorem lits_mono {F G : CNF} (h : F ⊆ G) : lits F ⊆ lits G := by
  intro l hl
  rw [mem_lits] at hl ⊢
  obtain ⟨c, hc, hlc⟩ := hl
  exact ⟨c, h hc, hlc⟩

theorem vars_mono {F G : CNF} (h : F ⊆ G) : vars F ⊆ vars G :=
  Finset.image_subset_image (lits_mono h)

/-- If there is a unit clause, the literal selected by `apply_unit` is the
sole member of a unit clause of `F`. -/
theorem unitLit_spec (p : Pick) {F : CNF} (h : unitClauses F ≠ ∅) :
    ({p.unitLit (unitClauses F)} : Finset ℤ) ∈ F ∧
      (({p.unitLit (unitClauses F)} : Finset ℤ)).card = 1 := by
  have hmem := p.unitLit_mem (unitClauses F) (Finset.nonempty_iff_ne_empty.2 h)
    (fun c hc => (Finset.mem_filter.1 hc).2)
  rw [unitClauses, Finset.mem_filter] at hmem
  exact hmem

/-- Propagation strictly reduces the number of clauses when the unit clause
`{u}` is present: `{u}` is filtered out and `Finset.image` cannot grow. -/
theorem propagate_card_lt {F : CNF} {u : ℤ} (h : ({u} : Finset ℤ) ∈ F) :
    (propagate F u).card < F.card := by
  have h1 : (propagate F u).card ≤ (F.filter (fun c => u ∉ c)).card :=
    Finset.card_image_le
  have h2 : F.filter (fun c => u ∉ c) ⊂ F := by
    refine Finset.ssubset_iff_of_subset (Finset.filter_subset _ _) |>.2 ?_
    exact ⟨{u}, h, by simp⟩
  exact lt_of_le_of_lt h1 (Finset.card_lt_card h2)

theorem applyUnit_card {p : Pick} {F : CNF} (h : (applyUnit p F).1 = true) :
    (applyUnit p F).2.card < F.card := by
  rw [applyUnit] at h ⊢
  by_cases he : unitClauses F = ∅
  · simp [he] at h
  · simp only [he, if_false]
    exact propagate_card_lt (unitLit_spec p he).1

theorem applyPure_card {F : CNF} (h : (applyPure F).1 = true) :
    (applyPure F).2.card < F.card := by
  rw [applyPure] at h ⊢
  by_cases he : pureSet F = ∅
  · simp [he] at h
  · simp only [he, if_false] at h ⊢
    exact of_decide_eq_true h

/-- Step 1 of `CNF.dpll`: `while self.apply_unit(): if self.is_unsat():
return False`.  `none` models the early `return False`; `some F` is the
clause set when the loop exits normally. -/
def unitLoop (p : Pick) (F : CNF) : Option CNF :=
  if h : (applyUnit p F).1 = true then
    if isUnsat (applyUnit p F).2 then none
    else unitLoop p (applyUnit p F).2
  else some F
termination_by F.card
decreasing_by exact applyUnit_card h

/-- Step 2 of `CNF.dpll`: `while self.apply_pure(): pass`. -/
def pureLoop (F : CNF) : CNF :=
  if h : (applyPure F).1 = true then pureLoop (applyPure F).2
  else (applyPure F).2
termination_by F.card
decreasing_by exact applyPure_card h

theorem applyUnit_fst_false {p : Pick} {F : CNF} :
    (applyUnit p F).1 = false ↔ unitClauses F = ∅ := by
  rw [applyUnit]
  by_cases he : unitClauses F = ∅ <;> simp [he]

theorem applyUnit_snd {p : Pick} {F : CNF} (h : unitClauses F ≠ ∅) :
    ∃ u : ℤ, ({u} : Finset ℤ) ∈ F ∧ (applyUnit p F).2 = propagate F u :=
  ⟨p.unitLit (unitClauses F), (unitLit_spec p h).1, by rw [applyUnit, if_neg h]⟩

theorem applyPure_snd_subset {F : CNF} : (applyPure F).2 ⊆ F := by
  rw [applyPure]
  by_cases he : pureSet F = ∅
  · simp [he]
  · simp only [he, if_false]
    exact Finset.filter_subset _ _

theorem lits_propagate {F : CNF} {u l : ℤ} (h : l ∈ lits (propagate F u)) :
    l ∈ lits F ∧ l ≠ u ∧ l ≠ -u := by
  rw [mem_lits] at h
  obtain ⟨c', hc', hl⟩ := h
  rw [propagate, Finset.mem_image] at hc'
  obtain ⟨c, hc, rfl⟩ := hc'
  rw [Finset.mem_filter] at hc
  have hne : l ≠ -u := Finset.ne_of_mem_erase hl
  have hmem : l ∈ c := Finset.mem_of_mem_erase hl
  exact ⟨mem_lits.2 ⟨c, hc.1, hmem⟩, fun he => hc.2 (he ▸ hmem), hne⟩

/-- Propagating `u` eliminates the variable `|u|` from the formula. -/
theorem vars_propagate_subset {F : CNF} {u : ℤ} :
    vars (propagate F u) ⊆ vars F \ {u.natAbs} := by
  intro v hv
  rw [vars, Finset.mem_image] at hv
  obtain ⟨l, hl, rfl⟩ := hv
  obtain ⟨hlF, hne1, hne2⟩ := lits_propagate hl
  rw [Finset.mem_sdiff, Finset.mem_singleton]
  refine ⟨Finset.mem_image_of_mem _ hlF, fun hab => ?_⟩
  rcases Int.natAbs_eq_natAbs_iff.1 hab with h | h
  · exact hne1 h
  · exact hne2 h

theorem vars_propagate_lt {F : CNF} {u : ℤ} (h : ({u} : Finset ℤ) ∈ F) :
    (vars (propagate F u)).card < (vars F).card := by
  have hu : u.natAbs ∈ vars F :=
    Finset.mem_image_of_mem _ (mem_lits.2 ⟨{u}, h, Finset.mem_singleton_self u⟩)
  have hss : vars (propagate F u) ⊂ vars F := by
    constructor
    · exact fun v hv => (Finset.mem_sdiff.1 (vars_propagate_subset hv)).1
    · intro hsub
      have := Finset.mem_sdiff.1 (vars_propagate_subset (hsub hu))
      exact this.2 (Finset.mem_singleton_self _)
  exact Finset.card_lt_card hss

/-- When `CNF.dpll`'s unit-propagation loop exits normally, no unit clause
remains, no new variable appeared, and — when the loop ran at least once —
the number of distinct variables strictly decreased. -/
theorem unitLoop_some {p : Pick} {F F1 : CNF} (h : unitLoop p F = some F1) :
    unitClauses F1 = ∅ ∧ vars F1 ⊆ vars F ∧
      (unitClauses F ≠ ∅ → (vars F1).card < (vars F).card) := by
  rw [unitLoop] at h
  by_cases hb : (applyUnit p F).1 = true
  · rw [dif_pos hb] at h
    by_cases hu : isUnsat (applyUnit p F).2 = true
    · rw [if_pos hu] at h
      exact absurd h (by simp)
    · rw [if_neg hu] at h
      have hne : unitClauses F ≠ ∅ := fun he =>
        by simp [applyUnit, he] at hb
      obtain ⟨u, huF, hsnd⟩ := applyUnit_snd (p := p) hne
      obtain ⟨ih1, ih2, _⟩ := unitLoop_some h
      rw [hsnd] at ih2
      refine ⟨ih1, ih2.trans (fun v hv => (Finset.mem_sdiff.1 (vars_propagate_subset hv)).1), fun _ => ?_⟩
      exact lt_of_le_of_lt (Finset.card_le_card ih2) (vars_propagate_lt huF)
  · rw [dif_neg hb] at h
    have hF1 : F1 = F := by
      simpa using h.symm
    subst hF1
    have he : unitClauses F1 = ∅ :=
      applyUnit_fst_false.1 (Bool.not_eq_true _ ▸ hb)
    exact ⟨he, Finset.Subset.refl _, fun hne => absurd he hne⟩
termination_by F.card
decreasing_by exact applyUnit_card hb

theorem pureLoop_subset {F : CNF} : pureLoop F ⊆ F := by
  rw [pureLoop]
  by_cases hb : (applyPure F).1 = true
  · rw [dif_pos hb]
    exact (pureLoop_subset).trans applyPure_snd_subset
  · rw [dif_neg hb]
    exact applyPure_snd_subset
termination_by F.card
decreasing_by exact applyPure_card hb

/-- Termination measure for `CNF.dpll`: the number of distinct variables,
plus one when the formula has no unit clause.  Each recursive call through
`apply_split` adds a unit clause over an existing variable, and propagating
it removes that variable, so the measure drops. -/
def dpllMeasure (F : CNF) : ℕ :=
  (vars F).card + (if unitClauses F = ∅ then 1 else 0)

theorem vars_addLiteral {F : CNF} {l : ℤ} (hl : l.natAbs ∈ vars F) :
    vars (addLiteral F l) = vars F := by
  apply Finset.Subset.antisymm
  · intro v hv
    rw [vars, Finset.mem_image] at hv
    obtain ⟨m, hm, rfl⟩ := hv
    rw [mem_lits] at hm
    obtain ⟨c, hc, hmc⟩ := hm
    rw [addLiteral, Finset.mem_insert] at hc
    rcases hc with rfl | hc
    · rw [Finset.mem_singleton] at hmc
      subst hmc
      exact hl
    · exact Finset.mem_image_of_mem _ (mem_lits.2 ⟨c, hc, hmc⟩)
  · exact vars_mono (Finset.subset_insert _ _)

theorem unitClauses_addLiteral_ne {F : CNF} {l : ℤ} :
    unitClauses (addLiteral F l) ≠ ∅ := by
  intro he
  have : ({l} : Finset ℤ) ∈ unitClauses (addLiteral F l) := by
    rw [unitClauses, Finset.mem_filter]
    exact ⟨Finset.mem_insert_self _ _, Finset.card_singleton _⟩
  rw [he] at this
  exact absurd this (Finset.not_mem_empty _)

/-- The measure decrease that justifies the recursion in `CNF.dpll`. -/
theorem split_measure_lt {p : Pick} {F F1 : CNF} (h1 : unitLoop p F = some F1)
    {l : ℤ} (hl : l.natAbs ∈ vars (pureLoop F1)) :
    dpllMeasure (addLiteral (pureLoop F1) l) < dpllMeasure F := by
  obtain ⟨hu1, hsub, hdec⟩ := unitLoop_some h1
  have h2 : vars (pureLoop F1) ⊆ vars F1 := vars_mono pureLoop_subset
  rw [dpllMeasure, dpllMeasure, vars_addLiteral hl,
    if_neg (unitClauses_addLiteral_ne (F := pureLoop F1) (l := l))]
  by_cases he : unitClauses F = ∅
  · rw [if_pos he]
    have : (vars (pureLoop F1)).card ≤ (vars F).card :=
      Finset.card_le_card (h2.trans hsub)
    omega
  · rw [if_neg he]
    have h3 : (vars F1).card < (vars F).card := hdec he
    have : (vars (pureLoop F1)).card ≤ (vars F1).card := Finset.card_le_card h2
    omega

/-- `CNF.dpll`: unit-propagate to a fixed point (aborting with `False` when
an empty clause appears), eliminate pure literals to a fixed point, check
the two base cases, then split.  `CNF.apply_split` is inlined: it returns
`False` when the literal set is empty (the code notes this cannot happen
here), and otherwise recurses on the two formulas built with
`CNF.add_literal` from a chosen literal and its negation, with the
short-circuiting `or` of Python's `or`. -/
def dpll (p : Pick) (F : CNF) : Bool :=
  match h1 : unitLoop p F with
  | none => false
  | some F1 =>
    if isSat (pureLoop F1) then true
    else if isUnsat (pureLoop F1) then false
    else if h4 : lits (pureLoop F1) = ∅ then false
    else
      dpll p (addLiteral (pureLoop F1) (p.splitLit (lits (pureLoop F1)))) ||
        dpll p (addLiteral (pureLoop F1) (-p.splitLit (lits (pureLoop F1))))
termination_by dpllMeasure F
decreasing_by
  · exact split_measure_lt h1 (Finset.mem_image_of_mem _
      (p.splitLit_mem _ (Finset.nonempty_iff_ne_empty.2 h4)))
  · exact split_measure_lt h1 (by
      rw [Int.natAbs_neg]
      exact Finset.mem_image_of_mem _
        (p.splitLit_mem _ (Finset.nonempty_iff_ne_empty.2 h4)))

/-- The smallest element of a nonempty finite set of integers (with a
default for the empty set); used to build concrete `Pick` instances. -/
def minLit (s : Finset ℤ) : ℤ := s.min.untop' 0

/-- The largest element, for a second, different concrete `Pick`. -/
def maxLit (s : Finset ℤ) : ℤ := s.max.unbot' 0

theorem minLit_mem {s : Finset ℤ} (h : s.Nonempty) : minLit s ∈ s := by
  obtain ⟨a, ha⟩ := Finset.min_of_nonempty h
  have : minLit s = a := by rw [minLit, ha]; rfl
  rw [this]
  exact Finset.mem_of_min ha

theorem maxLit_mem {s : Finset ℤ} (h : s.Nonempty) : maxLit s ∈ s := by
  obtain ⟨a, ha⟩ := Finset.max_of_nonempty h
  have : maxLit s = a := by rw [maxLit, ha]; rfl
  rw [this]
  exact Finset.mem_of_max ha

theorem lit_pick_mem {s : CNF} (f : Finset ℤ → ℤ)
    (hf : ∀ t : Finset ℤ, t.Nonempty → f t ∈ t) (hne : s.Nonempty)
    (hcard : ∀ c ∈ s, c.card = 1) : ({f (s.sup id)} : Finset ℤ) ∈ s := by
  obtain ⟨c, hc⟩ := hne
  have hcne : c.Nonempty := Finset.card_pos.1 (by rw [hcard c hc]; omega)
  obtain ⟨x, hx⟩ := hcne
  have hsup : (s.sup id).Nonempty :=
    ⟨x, Finset.mem_sup.2 ⟨c, hc, hx⟩⟩
  have hmem := hf _ hsup
  rw [Finset.mem_sup] at hmem
  obtain ⟨d, hd, hfd⟩ := hmem
  simp only [id_eq] at hfd
  obtain ⟨y, hy⟩ := Finset.card_eq_one.1 (hcard d hd)
  rw [hy, Finset.mem_singleton] at hfd
  rw [hfd, ← hy]
  exact hd

/-- One concrete run: always select the smallest literal/clause. -/
def defaultPick : Pick where
  unitLit s := minLit (s.sup id)
  splitLit := minLit
  unitLit_mem s hne hcard := lit_pick_mem minLit (fun _ => minLit_mem) hne hcard
  splitLit_mem _ hne := minLit_mem hne

/-- A second concrete run: always select the largest literal/clause. -/
def altPick : Pick where
  unitLit s := maxLit (s.sup id)
  splitLit := maxLit
  unitLit_mem s hne hcard := lit_pick_mem maxLit (fun _ => maxLit_mem) hne hcard
  splitLit_mem _ hne := maxLit_mem hne

/-! ### Semantics: truth assignments and satisfaction -/

/-- Truth value of a literal under an assignment of booleans to variables:
a positive literal holds iff its variable is true, a negative literal iff
its variable is false. -/
def evalLit (σ : ℕ → Bool) (l : ℤ) : Bool :=
  if 0 < l then σ l.natAbs else !σ l.natAbs

/-- An assignment satisfies a clause when it makes some literal true. -/
def clauseSat (σ : ℕ → Bool) (c : Clause) : Prop :=
  ∃ l ∈ c, evalLit σ l = true

/-- An assignment satisfies a formula when it satisfies every clause. -/
def cnfSat (σ : ℕ → Bool) (F : CNF) : Prop :=
  ∀ c ∈ F, clauseSat σ c

/-- Some assignment of truth values to the variables satisfies every
clause. -/
def Satisfiable (F : CNF) : Prop := ∃ σ : ℕ → Bool, cnfSat σ F

theorem evalLit_neg {σ : ℕ → Bool} {l : ℤ} (h : l ≠ 0) :
    evalLit σ (-l) = !evalLit σ l := by
  rcases lt_trichotomy l 0 with hl | hl | hl
  · rw [evalLit, evalLit, if_pos (by omega : (0:ℤ) < -l),
      if_neg (by omega : ¬ (0:ℤ) < l), Int.natAbs_neg, Bool.not_not]
  · exact absurd hl h
  · rw [evalLit, evalLit, if_neg (by omega : ¬ (0:ℤ) < -l), if_pos hl,
      Int.natAbs_neg]

theorem evalLit_congr {σ τ : ℕ → Bool} {l : ℤ} (h : σ l.natAbs = τ l.natAbs) :
    evalLit σ l = evalLit τ l := by
  rw [evalLit, evalLit, h]

theorem cnfSat_mono {σ : ℕ → Bool} {F G : CNF} (h : F ⊆ G)
    (hs : cnfSat σ G) : cnfSat σ F :=
  fun c hc => hs c (h hc)

theorem satisfiable_empty : Satisfiable (∅ : CNF) :=
  ⟨fun _ => true, fun c hc => absurd hc (Finset.not_mem_empty c)⟩

theorem not_satisfiable_of_empty_mem {F : CNF} (h : (∅ : Clause) ∈ F) :
    ¬ Satisfiable F := by
  rintro ⟨σ, hσ⟩
  obtain ⟨l, hl, _⟩ := hσ ∅ h
  exact absurd hl (Finset.not_mem_empty l)

theorem isUnsat_iff {F : CNF} : isUnsat F = true ↔ (∅ : Clause) ∈ F := by
  rw [isUnsat, decide_eq_true_iff]
  constructor
  · rintro ⟨c, hc, hcard⟩
    rwa [Finset.card_eq_zero.1 hcard] at hc
  · intro h
    exact ⟨∅, h, Finset.card_empty⟩

theorem isSat_iff {F : CNF} : isSat F = true ↔ F = ∅ := by
  rw [isSat, decide_eq_true_iff]

/-! ### Soundness of unit propagation -/

theorem unit_mem_lits {F : CNF} {u : ℤ} (hu : ({u} : Finset ℤ) ∈ F) :
    u ∈ lits F :=
  mem_lits.2 ⟨{u}, hu, Finset.mem_singleton_self u⟩

/-- Forward direction: an assignment satisfying `F` (hence its unit clause
`{u}`) still satisfies the propagated formula. -/
theorem cnfSat_propagate {σ : ℕ → Bool} {F : CNF} {u : ℤ}
    (h0 : (0:ℤ) ∉ lits F) (hu : ({u} : Finset ℤ) ∈ F) (hs : cnfSat σ F) :
    cnfSat σ (propagate F u) := by
  have hu0 : u ≠ 0 := fun h => h0 (h ▸ unit_mem_lits hu)
  have hut : evalLit σ u = true := by
    obtain ⟨l, hl, he⟩ := hs {u} hu
    rwa [Finset.mem_singleton.1 hl] at he
  intro c' hc'
  rw [propagate, Finset.mem_image] at hc'
  obtain ⟨c, hc, rfl⟩ := hc'
  rw [Finset.mem_filter] at hc
  obtain ⟨l, hl, he⟩ := hs c hc.1
  have hlne : l ≠ -u := by
    rintro rfl
    rw [evalLit_neg hu0, hut] at he
    simp at he
  exact ⟨l, Finset.mem_erase.2 ⟨hlne, hl⟩, he⟩

/-- The assignment that forces literal `u` true and leaves every other
variable alone. -/
def forceLit (σ : ℕ → Bool) (u : ℤ) : ℕ → Bool :=
  fun v => if v = u.natAbs then decide (0 < u) else σ v

theorem evalLit_forceLit_self {σ : ℕ → Bool} {u : ℤ} (h : u ≠ 0) :
    evalLit (forceLit σ u) u = true := by
  rcases lt_trichotomy u 0 with hu | hu | hu
  · rw [evalLit, if_neg (by omega : ¬ (0:ℤ) < u), forceLit, if_pos rfl,
      decide_eq_false (by omega : ¬ (0:ℤ) < u)]
    rfl
  · exact absurd hu h
  · rw [evalLit, if_pos hu, forceLit, if_pos rfl, decide_eq_true hu]

theorem evalLit_forceLit_other {σ : ℕ → Bool} {u l : ℤ}
    (h : l.natAbs ≠ u.natAbs) : evalLit (forceLit σ u) l = evalLit σ l :=
  evalLit_congr (by rw [forceLit, if_neg h])

/-- Backward direction: a satisfying assignment of the propagated formula
extends (by forcing `u` true) to one of the original formula. -/
theorem cnfSat_propagate_rev {σ : ℕ → Bool} {F : CNF} {u : ℤ}
    (h0 : (0:ℤ) ∉ lits F) (hu : ({u} : Finset ℤ) ∈ F)
    (hs : cnfSat σ (propagate F u)) : cnfSat (forceLit σ u) F := by
  have hu0 : u ≠ 0 := fun h => h0 (h ▸ unit_mem_lits hu)
  intro c hc
  by_cases hcu : u ∈ c
  · exact ⟨u, hcu, evalLit_forceLit_self hu0⟩
  · have hmem : c.erase (-u) ∈ propagate F u := by
      rw [propagate, Finset.mem_image]
      exact ⟨c, Finset.mem_filter.2 ⟨hc, hcu⟩, rfl⟩
    obtain ⟨l, hl, he⟩ := hs _ hmem
    have hlc : l ∈ c := Finset.mem_of_mem_erase hl
    have hne : l.natAbs ≠ u.natAbs := by
      intro hab
      rcases Int.natAbs_eq_natAbs_iff.1 hab with rfl | rfl
      · exact hcu hlc
      · exact Finset.ne_of_mem_erase hl rfl
    exact ⟨l, hlc, by rw [evalLit_forceLit_other hne]; exact he⟩

theorem satisfiable_propagate_iff {F : CNF} {u : ℤ}
    (h0 : (0:ℤ) ∉ lits F) (hu : ({u} : Finset ℤ) ∈ F) :
    Satisfiable F ↔ Satisfiable (propagate F u) :=
  ⟨fun ⟨σ, hσ⟩ => ⟨σ, cnfSat_propagate h0 hu hσ⟩,
    fun ⟨σ, hσ⟩ => ⟨forceLit σ u, cnfSat_propagate_rev h0 hu hσ⟩⟩

theorem zero_not_mem_lits_propagate {F : CNF} {u : ℤ}
    (h0 : (0:ℤ) ∉ lits F) : (0:ℤ) ∉ lits (propagate F u) :=
  fun h => h0 (lits_propagate h).1

/-- Satisfiability is invariant across the whole unit-propagation loop, and
an early `return False` is sound: the formula was unsatisfiable. -/
theorem unitLoop_sat {p : Pick} {F : CNF} (h0 : (0:ℤ) ∉ lits F) :
    (unitLoop p F = none → ¬ Satisfiable F) ∧
      (∀ F1, unitLoop p F = some F1 →
        ((Satisfiable F ↔ Satisfiable F1) ∧ (0:ℤ) ∉ lits F1)) := by
  rw [unitLoop]
  by_cases hb : (applyUnit p F).1 = true
  · have hne : unitClauses F ≠ ∅ := fun he => by simp [applyUnit, he] at hb
    obtain ⟨u, huF, hsnd⟩ := applyUnit_snd (p := p) hne
    have hiff : Satisfiable F ↔ Satisfiable (applyUnit p F).2 := by
      rw [hsnd]; exact satisfiable_propagate_iff h0 huF
    have h0' : (0:ℤ) ∉ lits (applyUnit p F).2 := by
      rw [hsnd]; exact zero_not_mem_lits_propagate h0
    rw [dif_pos hb]
    by_cases hun : isUnsat (applyUnit p F).2 = true
    · rw [if_pos hun]
      refine ⟨fun _ => ?_, fun F1 hF1 => absurd hF1 (by simp)⟩
      rw [hiff]
      exact not_satisfiable_of_empty_mem (isUnsat_iff.1 hun)
    · rw [if_neg hun]
      obtain ⟨ih1, ih2⟩ := unitLoop_sat (p := p) h0'
      exact ⟨fun h => fun hsat => ih1 h (hiff.1 hsat),
        fun F1 hF1 => ⟨hiff.trans (ih2 F1 hF1).1, (ih2 F1 hF1).2⟩⟩
  · rw [dif_neg hb]
    exact ⟨fun h => absurd h (by simp), fun F1 hF1 => by
      rw [Option.some_inj] at hF1
      subst hF1
      exact ⟨Iff.rfl, h0⟩⟩
termination_by F.card
decreasing_by exact applyUnit_card hb

/-! ### Soundness of pure-literal elimination -/

theorem mem_pureSet {F : CNF} {l : ℤ} :
    l ∈ pureSet F ↔ l ∈ lits F ∧ -l ∉ lits F := by
  rw [pureSet, Finset.mem_filter]

/-- The kept clause set of `apply_pure` is exactly the set of clauses that
meet no pure literal, whether or not any pure literal exists. -/
theorem mem_applyPure_snd {F : CNF} {c : Clause} :
    c ∈ (applyPure F).2 ↔ c ∈ F ∧ c ∩ pureSet F = ∅ := by
  rw [applyPure]
  by_cases he : pureSet F = ∅
  · simp [he]
  · simp only [he, if_false, Finset.mem_filter]

/-- The assignment that makes every pure literal true and leaves every
other variable alone. -/
def pureAssign (σ : ℕ → Bool) (F : CNF) : ℕ → Bool :=
  fun v => if (v:ℤ) ∈ pureSet F then true
    else if -(v:ℤ) ∈ pureSet F then false else σ v

theorem evalLit_pureAssign_pure {σ : ℕ → Bool} {F : CNF} {l : ℤ}
    (h0 : (0:ℤ) ∉ lits F) (hl : l ∈ pureSet F) :
    evalLit (pureAssign σ F) l = true := by
  obtain ⟨hmem, hneg⟩ := mem_pureSet.1 hl
  have hl0 : l ≠ 0 := fun h => h0 (h ▸ hmem)
  rcases lt_trichotomy l 0 with hlt | hlt | hlt
  · have h1 : ((l.natAbs : ℤ)) = -l := by omega
    have h2 : (l.natAbs : ℤ) ∉ pureSet F := fun h =>
      hneg (h1 ▸ (mem_pureSet.1 h).1)
    rw [evalLit, if_neg (by omega : ¬ (0:ℤ) < l), pureAssign, if_neg h2,
      if_pos (by rw [h1, neg_neg]; exact hl)]
    rfl
  · exact absurd hlt hl0
  · have h1 : ((l.natAbs : ℤ)) = l := by omega
    rw [evalLit, if_pos hlt, pureAssign, if_pos (h1 ▸ hl)]

theorem evalLit_pureAssign_other {σ : ℕ → Bool} {F : CNF} {c : Clause}
    {l : ℤ} (hc : c ∈ F) (hl : l ∈ c) (hd : c ∩ pureSet F = ∅) :
    evalLit (pureAssign σ F) l = evalLit σ l := by
  have hA : l ∉ pureSet F := fun h =>
    absurd (hd ▸ Finset.mem_inter.2 ⟨hl, h⟩) (Finset.not_mem_empty l)
  have hB : -l ∉ pureSet F := fun h =>
    (neg_neg l ▸ (mem_pureSet.1 h).2) (mem_lits.2 ⟨c, hc, hl⟩)
  refine evalLit_congr ?_
  rw [pureAssign]
  rcases Int.natAbs_eq l with h1 | h1
  · rw [if_neg (h1 ▸ hA), if_neg (by rw [← h1]; exact hB)]
  · rw [if_neg (by rw [← neg_eq_iff_eq_neg.2 h1]; exact hB),
      if_neg (by rw [← neg_eq_iff_eq_neg.2 h1, neg_neg]; exact hA)]

/-- Backward direction for `apply_pure`: a satisfying assignment of the kept
clauses extends (by making the pure literals true) to the whole formula. -/
theorem cnfSat_applyPure_rev {σ : ℕ → Bool} {F : CNF}
    (h0 : (0:ℤ) ∉ lits F) (hs : cnfSat σ (applyPure F).2) :
    cnfSat (pureAssign σ F) F := by
  intro c hc
  by_cases hd : c ∩ pureSet F = ∅
  · obtain ⟨l, hl, he⟩ := hs c (mem_applyPure_snd.2 ⟨hc, hd⟩)
    exact ⟨l, hl, by rw [evalLit_pureAssign_other hc hl hd]; exact he⟩
  · obtain ⟨x, hx⟩ := Finset.nonempty_iff_ne_empty.2 hd
    rw [Finset.mem_inter] at hx
    exact ⟨x, hx.1, evalLit_pureAssign_pure h0 hx.2⟩

theorem satisfiable_applyPure_iff {F : CNF} (h0 : (0:ℤ) ∉ lits F) :
    Satisfiable F ↔ Satisfiable (applyPure F).2 :=
  ⟨fun ⟨σ, hσ⟩ => ⟨σ, cnfSat_mono applyPure_snd_subset hσ⟩,
    fun ⟨σ, hσ⟩ => ⟨pureAssign σ F, cnfSat_applyPure_rev h0 hσ⟩⟩

theorem pureLoop_sat {F : CNF} (h0 : (0:ℤ) ∉ lits F) :
    Satisfiable F ↔ Satisfiable (pureLoop F) := by
  rw [pureLoop]
  by_cases hb : (applyPure F).1 = true
  · rw [dif_pos hb]
    have h0' : (0:ℤ) ∉ lits (applyPure F).2 :=
      fun h => h0 (lits_mono applyPure_snd_subset h)
    exact (satisfiable_applyPure_iff h0).trans (pureLoop_sat h0')
  · rw [dif_neg hb]
    exact satisfiable_applyPure_iff h0
termination_by F.card
decreasing_by exact applyPure_card hb

/-! ### Soundness of splitting -/

theorem lits_addLiteral {F : CNF} {l : ℤ} :
    lits (addLiteral F l) = insert l (lits F) := by
  rw [addLiteral, lits, lits, Finset.sup_insert]
  ext x
  simp [Finset.mem_sup]

theorem satisfiable_addLiteral_or {F : CNF} {l : ℤ}
    (hl : l ≠ 0) :
    Satisfiable F ↔
      (Satisfiable (addLiteral F l) ∨ Satisfiable (addLiteral F (-l))) := by
  constructor
  · rintro ⟨σ, hσ⟩
    by_cases he : evalLit σ l = true
    · refine Or.inl ⟨σ, fun c hc => ?_⟩
      rw [addLiteral, Finset.mem_insert] at hc
      rcases hc with rfl | hc
      · exact ⟨l, Finset.mem_singleton_self l, he⟩
      · exact hσ c hc
    · refine Or.inr ⟨σ, fun c hc => ?_⟩
      rw [addLiteral, Finset.mem_insert] at hc
      rcases hc with rfl | hc
      · refine ⟨-l, Finset.mem_singleton_self _, ?_⟩
        rw [evalLit_neg hl, Bool.eq_false_iff.2 he]
        rfl
      · exact hσ c hc
  · rintro (⟨σ, hσ⟩ | ⟨σ, hσ⟩) <;>
      exact ⟨σ, cnfSat_mono (Finset.subset_insert _ _) hσ⟩

/-! ### Unfolding equations for `dpll` -/

theorem dpll_none {p : Pick} {F : CNF} (h1 : unitLoop p F = none) :
    dpll p F = false := by
  rw [dpll]
  split
  · rfl
  · rename_i F1 heq
    rw [h1] at heq
    exact absurd heq (by simp)

theorem dpll_some {p : Pick} {F F1 : CNF} (h1 : unitLoop p F = some F1) :
    dpll p F =
      (if isSat (pureLoop F1) then true
       else if isUnsat (pureLoop F1) then false
       else if lits (pureLoop F1) = ∅ then false
       else
         dpll p (addLiteral (pureLoop F1) (p.splitLit (lits (pureLoop F1)))) ||
           dpll p (addLiteral (pureLoop F1) (-p.splitLit (lits (pureLoop F1))))) := by
  rw [dpll]
  split
  · rename_i heq
    rw [h1] at heq
    exact absurd heq (by simp)
  · rename_i F1' heq
    rw [h1, Option.some_inj] at heq
    subst heq
    rfl

/-! ### The main correctness theorem for `CNF.dpll` -/

theorem dpll_eq_sat (p : Pick) (F : CNF) (h0 : (0:ℤ) ∉ lits F) :
    dpll p F = true ↔ Satisfiable F := by
  rw [dpll]
  split
  next h1 =>
    have hns := (unitLoop_sat h0).1 h1
    simp only [Bool.false_eq_true, false_iff]
    exact hns
  next F1 h1 =>
    obtain ⟨hiff, h0'⟩ := (unitLoop_sat h0).2 F1 h1
    have h0g : (0:ℤ) ∉ lits (pureLoop F1) :=
      fun h => h0' (lits_mono pureLoop_subset h)
    rw [hiff, pureLoop_sat h0']
    split_ifs with hs1 hs2 hs3
    · rw [isSat_iff] at hs1
      rw [hs1]
      simp only [true_iff]
      exact satisfiable_empty
    · simp only [Bool.false_eq_true, false_iff]
      exact not_satisfiable_of_empty_mem (isUnsat_iff.1 hs2)
    · exfalso
      have hne : (pureLoop F1).Nonempty :=
        Finset.nonempty_iff_ne_empty.2 (fun h => hs1 (isSat_iff.2 h))
      obtain ⟨c, hc⟩ := hne
      have hcempty : c = ∅ := by
        rw [Finset.eq_empty_iff_forall_not_mem]
        intro x hx
        have : x ∈ lits (pureLoop F1) := mem_lits.2 ⟨c, hc, hx⟩
        rw [hs3] at this
        exact absurd this (Finset.not_mem_empty x)
      exact hs2 (isUnsat_iff.2 (hcempty ▸ hc))
    · have hmem : p.splitLit (lits (pureLoop F1)) ∈ lits (pureLoop F1) :=
        p.splitLit_mem _ (Finset.nonempty_iff_ne_empty.2 hs3)
      have hlne : p.splitLit (lits (pureLoop F1)) ≠ 0 :=
        fun h => h0g (h ▸ hmem)
      have h0a : (0:ℤ) ∉
          lits (addLiteral (pureLoop F1) (p.splitLit (lits (pureLoop F1)))) := by
        rw [lits_addLiteral]
        intro h
        rcases Finset.mem_insert.1 h with h | h
        · exact hlne h.symm
        · exact h0g h
      have h0b : (0:ℤ) ∉
          lits (addLiteral (pureLoop F1) (-p.splitLit (lits (pureLoop F1)))) := by
        rw [lits_addLiteral]
        intro h
        rcases Finset.mem_insert.1 h with h | h
        · exact hlne (by omega)
        · exact h0g h
      rw [Bool.or_eq_true, dpll_eq_sat p _ h0a, dpll_eq_sat p _ h0b]
      exact (satisfiable_addLiteral_or hlne).symm
termination_by dpllMeasure F
decreasing_by
  · rename_i F1 h1 hx heq
    exact split_measure_lt heq (Finset.mem_image_of_mem _
      (p.splitLit_mem _ (Finset.nonempty_iff_ne_empty.2 hs3)))
  · rename_i F1 h1 hx heq
    exact split_measure_lt heq (by
      rw [Int.natAbs_neg]
      exact Finset.mem_image_of_mem _
        (p.splitLit_mem _ (Finset.nonempty_iff_ne_empty.2 hs3)))

/-! ### A fuel-indexed copy of `CNF.dpll`, used to state termination -/

/-- `CNF.dpll` with an explicit bound on the recursion depth: `none` stands
for running out of recursion budget, and the `some true`/`some false` cases
run exactly the steps of `CNF.dpll`, with Python's short-circuiting `or`. -/
def dpllFuel (p : Pick) : ℕ → CNF → Option Bool
  | 0, _ => none
  | fuel + 1, F =>
    match unitLoop p F with
    | none => some false
    | some F1 =>
      if isSat (pureLoop F1) then some true
      else if isUnsat (pureLoop F1) then some false
      else if lits (pureLoop F1) = ∅ then some false
      else
        match dpllFuel p fuel
            (addLiteral (pureLoop F1) (p.splitLit (lits (pureLoop F1)))) with
        | none => none
        | some true => some true
        | some false =>
          dpllFuel p fuel
            (addLiteral (pureLoop F1) (-p.splitLit (lits (pureLoop F1))))

/-- With more fuel than the number of distinct variables, the fuel-indexed
recursion never exhausts its budget and computes `CNF.dpll`. -/
theorem dpllFuel_eq (p : Pick) :
    ∀ (fuel : ℕ) (F : CNF), dpllMeasure F < fuel →
      dpllFuel p fuel F = some (dpll p F) := by
  intro fuel
  induction fuel with
  | zero => exact fun F h => absurd h (Nat.not_lt_zero _)
  | succ n ih =>
    intro F h
    cases h1 : unitLoop p F with
    | none =>
      rw [dpll_none h1]
      simp only [dpllFuel, h1]
    | some F1 =>
      rw [dpll_some h1]
      simp only [dpllFuel, h1]
      split_ifs with hs1 hs2 hs3
      · rfl
      · rfl
      · rfl
      · have hmem : (p.splitLit (lits (pureLoop F1))).natAbs ∈
            vars (pureLoop F1) :=
          Finset.mem_image_of_mem _
            (p.splitLit_mem _ (Finset.nonempty_iff_ne_empty.2 hs3))
        have hmemn : (-p.splitLit (lits (pureLoop F1))).natAbs ∈
            vars (pureLoop F1) := by
          rw [Int.natAbs_neg]
          exact hmem
        have hc1 : dpllMeasure
            (addLiteral (pureLoop F1) (p.splitLit (lits (pureLoop F1)))) < n := by
          have := split_measure_lt h1 hmem
          omega
        have hc2 : dpllMeasure
            (addLiteral (pureLoop F1) (-p.splitLit (lits (pureLoop F1)))) < n := by
          have := split_measure_lt h1 hmemn
          omega
        rw [ih _ hc1]
        cases hd : dpll p
            (addLiteral (pureLoop F1) (p.splitLit (lits (pureLoop F1)))) with
        | true => rfl
        | false =>
          rw [ih _ hc2]
          rfl

/-! ### The DIMACS parser of `parse_dimacs.py`

The parser is modelled over its input as a list of lines.  Python's
exceptions (`raise ValueError`, failed `assert`, and the `NameError` that
using the loop variable `literal` before any assignment would produce) are
modelled with `Except`.  The `try/except ValueError` blocks around `int()`
calls only `print` a message and fall through, so they are modelled as
continuing with the previous value — exactly what the Python code does. -/

/-- Python exceptions surfaced by `parse_dimacs`. -/
inductive PyError where
  | valueError : String → PyError
  | assertionError : String → PyError
  | nameError : PyError
deriving DecidableEq, Repr

/-- The two parser states of `parse_dimacs.ParserState`. -/
inductive ParserState where
  | INIT : ParserState
  | PROB : ParserState
deriving DecidableEq, Repr

/-- Python `line.rstrip()`: trailing whitespace removed.  Lines are handled
as character lists so that every step is structurally recursive. -/
def pyRstrip (s : List Char) : List Char :=
  (s.reverse.dropWhile Char.isWhitespace).reverse

/-- Helper for `pySplit`: the accumulator holds the current token
reversed. -/
def pySplitAux : List Char → List Char → List (List Char)
  | [], acc => if acc = [] then [] else [acc.reverse]
  | c :: rest, acc =>
    if c.isWhitespace then
      if acc = [] then pySplitAux rest []
      else acc.reverse :: pySplitAux rest []
    else pySplitAux rest (c :: acc)

/-- Python `line.split()`: split on whitespace runs, no empty tokens. -/
def pySplit (s : List Char) : List (List Char) := pySplitAux s []

/-- The numeric value of a list of decimal digits. -/
def digitsToNat (s : List Char) : ℕ :=
  s.foldl (fun acc c => 10 * acc + (c.toNat - 48)) 0

/-- Python `int(token)` on the whitespace-free tokens `split()` yields: an
optional sign followed by decimal digits; `none` models the `ValueError`. -/
def pyInt : List Char → Option ℤ
  | [] => none
  | '-' :: rest =>
    if rest ≠ [] ∧ rest.all Char.isDigit then some (-(digitsToNat rest : ℤ))
    else none
  | '+' :: rest =>
    if rest ≠ [] ∧ rest.all Char.isDigit then some ((digitsToNat rest : ℤ))
    else none
  | s =>
    if s.all Char.isDigit then some ((digitsToNat s : ℤ)) else none

/-- The mutable locals of `parse_dimacs` while it scans the file.
`lastLit` is the function-level loop variable `literal`, which survives
across tokens and lines; `none` means it was never assigned. -/
structure PState where
  state : ParserState
  numLiterals : ℤ
  numClauses : ℤ
  clauses : List Clause
  current : Finset ℤ
  lastLit : Option ℤ
deriving DecidableEq

/-- The token loop of the `PROB` branch: returns the literal set collected
from the line, the updated `literal` variable, and whether a `0` terminator
was seen.  A non-integer token is only reported (`print`), after which
`literals.add(literal)` runs with the stale previous value of `literal` —
or fails with `NameError` when `literal` was never assigned. -/
def procTokens (lineNum : ℕ) (total : ℕ) :
    List (List Char) → ℕ → Finset ℤ → Option ℤ → Bool →
      Except PyError (Finset ℤ × Option ℤ × Bool)
  | [], _, literals, lastLit, finalLine => .ok (literals, lastLit, finalLine)
  | s :: rest, index, literals, lastLit, finalLine =>
    if s = ['0'] then
      if index ≠ total - 1 then
        .error (.assertionError ("Error on line " ++ toString lineNum ++
          ": Zero terminator encountered in index " ++ toString index ++
          ", not as final integer"))
      else procTokens lineNum total rest (index + 1) literals lastLit true
    else
      match pyInt s with
      | some v =>
        procTokens lineNum total rest (index + 1) (insert v literals)
          (some v) finalLine
      | none =>
        match lastLit with
        | some v =>
          procTokens lineNum total rest (index + 1) (insert v literals)
            lastLit finalLine
        | none => .error .nameError

/-- One iteration of the line loop of `parse_dimacs`. -/
def processLine (st : PState) (lineNum : ℕ) (rawLine : String) :
    Except PyError PState :=
  match hline : pyRstrip rawLine.toList with
  | [] => .ok st
  | c0 :: _ =>
    let line := pyRstrip rawLine.toList
    if c0 = 'c' then .ok st
    else
    match st.state with
    | .INIT =>
      if c0 ≠ 'p' then
        .error (.valueError ("Error on line " ++ toString lineNum ++
          ": Unexpected character found while parsing in INIT state"))
      else
        let probInfo := pySplit line
        if probInfo.length ≠ 4 then
          .error (.assertionError "len of prob_info is not 4")
        else if probInfo.get? 0 ≠ some ['p'] then
          .error (.assertionError "prob_info does not start with p")
        else if probInfo.get? 1 ≠ some ['c', 'n', 'f'] then
          .error (.assertionError "Non-CNF formats unsupported")
        else
          let nl := match probInfo.get? 2 with
            | some t => (pyInt t).getD st.numLiterals
            | none => st.numLiterals
          let nc := match probInfo.get? 3 with
            | some t => (pyInt t).getD st.numClauses
            | none => st.numClauses
          .ok { st with state := .PROB, numLiterals := nl, numClauses := nc }
    | .PROB =>
      let strs := pySplit line
      match procTokens lineNum strs.length strs 0 ∅ st.lastLit false with
      | .error e => .error e
      | .ok (literals, lastLit, finalLine) =>
        let current := st.current ∪ literals
        if finalLine then
          .ok { st with
                clauses := st.clauses ++ [current]
                current := ∅
                lastLit := lastLit }
        else
          .ok { st with current := current, lastLit := lastLit }

/-- The line loop of `parse_dimacs`, threading the line number. -/
def processLines : PState → ℕ → List String → Except PyError PState
  | st, _, [] => .ok st
  | st, lineNum, line :: rest =>
    match processLine st lineNum line with
    | .error e => .error e
    | .ok st' => processLines st' (lineNum + 1) rest

/-- `parse_dimacs`: parse the input lines and return
`(CNF(clauses), num_literals, num_clauses)`, or the first exception. -/
def parseDimacs (inputLines : List String) : Except PyError (CNF × ℤ × ℤ) :=
  match processLines ⟨.INIT, -1, -1, [], ∅, none⟩ 0 inputLines with
  | .error e => .error e
  | .ok st =>
    if st.current ≠ ∅ then
      .error (.valueError
        "Error at end of file: Last clause not terminated with 0, literals discarded")
    else .ok (st.clauses.toFinset, st.numLiterals, st.numClauses)

instance {α β : Type} [DecidableEq α] [DecidableEq β] :
    DecidableEq (Except α β) := fun a b =>
  match a, b with
  | .ok x, .ok y => decidable_of_iff (x = y) (by simp)
  | .error x, .error y => decidable_of_iff (x = y) (by simp)
  | .ok _, .error _ => isFalse (by simp)
  | .error _, .ok _ => isFalse (by simp)

/-! ### Remaining helper lemmas -/

/-- Extensional description of `propagate`: the surviving clauses are the
untouched ones (no occurrence of `u` or `-u`) and the simplified ones
(`-u` erased from a clause free of `u`). -/
theorem mem_propagate {F : CNF} {u : ℤ} {c : Clause} :
    c ∈ propagate F u ↔
      ((c ∈ F ∧ u ∉ c ∧ -u ∉ c) ∨
        ∃ d ∈ F, u ∉ d ∧ -u ∈ d ∧ c = d.erase (-u)) := by
  rw [propagate, Finset.mem_image]
  constructor
  · rintro ⟨d, hd, rfl⟩
    rw [Finset.mem_filter] at hd
    by_cases hneg : -u ∈ d
    · exact Or.inr ⟨d, hd.1, hd.2, hneg, rfl⟩
    · rw [Finset.erase_eq_of_not_mem hneg]
      exact Or.inl ⟨hd.1, hd.2, hneg⟩
  · rintro (⟨hc, hu, hneg⟩ | ⟨d, hd, hu, hneg, rfl⟩)
    · exact ⟨c, Finset.mem_filter.2 ⟨hc, hu⟩, Finset.erase_eq_of_not_mem hneg⟩
    · exact ⟨d, Finset.mem_filter.2 ⟨hd, hu⟩, rfl⟩

theorem applyUnit_snd_of_no_unit {p : Pick} {F : CNF}
    (he : unitClauses F = ∅) : (applyUnit p F).2 = F := by
  rw [applyUnit, if_pos he]

theorem applyPure_snd_of_fst_false {F : CNF} (h : (applyPure F).1 = false) :
    (applyPure F).2 = F := by
  rw [applyPure] at h ⊢
  by_cases he : pureSet F = ∅
  · rw [if_pos he]
  · rw [if_neg he] at h ⊢
    simp only [decide_eq_false_iff_not, not_lt] at h
    exact Finset.eq_of_subset_of_card_le (Finset.filter_subset _ _) h

theorem unitClauses_addLiteral {F : CNF} {l : ℤ}
    (h : unitClauses F = ∅) :
    unitClauses (addLiteral F l) = {({l} : Finset ℤ)} := by
  rw [addLiteral, unitClauses, Finset.filter_insert,
    if_pos (Finset.card_singleton l)]
  rw [unitClauses] at h
  rw [h]
  rfl

/-- The mechanism behind termination: at a split point the formula has no
unit clause, so in either branch the first propagation step is forced to
consume the freshly added unit clause `{l}` and eliminates the split
variable; whatever unit propagation does afterwards, the branch reaches its
own split point with strictly fewer distinct variables. -/
theorem split_branch_removes_var (p : Pick) {F2 : CNF} {l : ℤ} {F1' : CNF}
    (hu : unitClauses F2 = ∅) (hl : l ∈ lits F2)
    (h : unitLoop p (addLiteral F2 l) = some F1') :
    l.natAbs ∉ vars F1' ∧ (vars F1').card < (vars F2).card := by
  have hc : unitClauses (addLiteral F2 l) = {({l} : Finset ℤ)} :=
    unitClauses_addLiteral hu
  have hcne : unitClauses (addLiteral F2 l) ≠ ∅ := by
    rw [hc]
    simp
  have hfst : (applyUnit p (addLiteral F2 l)).1 = true := by
    rw [applyUnit, if_neg hcne]
  have hpick : p.unitLit (unitClauses (addLiteral F2 l)) = l := by
    have hm := p.unitLit_mem (unitClauses (addLiteral F2 l))
      (Finset.nonempty_iff_ne_empty.2 hcne)
      (fun c hcmem => (Finset.mem_filter.1 hcmem).2)
    rw [hc, Finset.mem_singleton] at hm
    rw [hc]
    exact Finset.singleton_injective hm
  have hsnd : (applyUnit p (addLiteral F2 l)).2 =
      propagate (addLiteral F2 l) l := by
    rw [applyUnit, if_neg hcne, hpick]
  rw [unitLoop, dif_pos hfst] at h
  by_cases hun : isUnsat (applyUnit p (addLiteral F2 l)).2 = true
  · rw [if_pos hun] at h
    exact absurd h (by simp)
  · rw [if_neg hun] at h
    obtain ⟨_, hsub, _⟩ := unitLoop_some h
    rw [hsnd] at hsub
    have hss : vars F1' ⊆ vars (addLiteral F2 l) \ {l.natAbs} :=
      hsub.trans vars_propagate_subset
    have hvc : vars (addLiteral F2 l) = vars F2 :=
      vars_addLiteral (Finset.mem_image_of_mem _ hl)
    rw [hvc] at hss
    refine ⟨fun hmem => (Finset.mem_sdiff.1 (hss hmem)).2
      (Finset.mem_singleton_self _), ?_⟩
    have h1 : (vars F1').card ≤ (vars F2 \ {l.natAbs}).card :=
      Finset.card_le_card hss
    have h2 : (vars F2 \ {l.natAbs}).card < (vars F2).card := by
      rw [← Finset.erase_eq]
      exact Finset.card_erase_lt_of_mem (Finset.mem_image_of_mem _ hl)
    omega

theorem inter_pureSet_eq_empty {F : CNF} {c : Clause} (hc : c ∈ F) :
    c ∩ pureSet F = ∅ ↔ ∀ l ∈ c, -l ∈ lits F := by
  rw [Finset.eq_empty_iff_forall_not_mem]
  constructor
  · intro h l hl
    by_contra hneg
    exact h l (Finset.mem_inter.2
      ⟨hl, mem_pureSet.2 ⟨mem_lits.2 ⟨c, hc, hl⟩, hneg⟩⟩)
  · intro h x hx
    rw [Finset.mem_inter] at hx
    exact (mem_pureSet.1 hx.2).2 (h x hx.1)

/-- `CNF.__init__`: the clause list is stored as a set. -/
def mkCNF (L : List Clause) : CNF := L.toFinset

/-- A `Clause` built from literals listed in some order. -/
def mkClause (xs : List ℤ) : Clause := xs.toFinset

/-- `CNF.num_clauses` when not supplied: `len(self.clauses)`. -/
def numClauses (L : List Clause) : ℕ := (mkCNF L).card

/-! ### The claims -/

/-- C1: for every formula built from finitely many clauses whose literals
are nonzero integers, and for every run (any unit-clause selection order and
any split-literal choice), `CNF.dpll()` returns true iff some assignment of
truth values to the variables satisfies every clause, and false iff no such
assignment exists. -/
theorem dpll_decides_satisfiability (p : Pick) (F : CNF)
    (h0 : (0:ℤ) ∉ lits F) :
    (dpll p F = true ↔ Satisfiable F) ∧
      (dpll p F = false ↔ ¬ Satisfiable F) := by
  have h := dpll_eq_sat p F h0
  refine ⟨h, ?_⟩
  rw [Bool.eq_false_iff]
  exact not_congr h

theorem dpll_decides_satisfiability_witness :
    (dpll defaultPick {({1} : Finset ℤ), {-1, 2}} = true ↔
        Satisfiable {({1} : Finset ℤ), {-1, 2}}) ∧
      (dpll defaultPick {({1} : Finset ℤ), {-1, 2}} = false ↔
        ¬ Satisfiable {({1} : Finset ℤ), {-1, 2}}) :=
  dpll_decides_satisfiability defaultPick {({1} : Finset ℤ), {-1, 2}}
    (by decide)

/-- C2: `CNF.dpll()` terminates on every formula with a finite set of
distinct variables: a recursion budget of two more than the number of
distinct variables is never exhausted, because the unit clause a split adds
is the only unit clause of the branch formula, so its propagation removes
the split variable and the variable count strictly decreases along every
recursive branch (second conjunct). -/
theorem dpll_terminates (p : Pick) (F : CNF) (fuel : ℕ)
    (hfuel : (vars F).card + 2 ≤ fuel) :
    dpllFuel p fuel F = some (dpll p F) ∧
      (∀ (F2 : CNF) (l : ℤ) (F1' : CNF), unitClauses F2 = ∅ → l ∈ lits F2 →
        unitLoop p (addLiteral F2 l) = some F1' →
          l.natAbs ∉ vars F1' ∧ (vars F1').card < (vars F2).card) := by
  refine ⟨dpllFuel_eq p fuel F ?_,
    fun F2 l F1' hu hl h => split_branch_removes_var p hu hl h⟩
  rw [dpllMeasure]
  split_ifs <;> omega

theorem dpll_terminates_witness :
    dpllFuel defaultPick 4 {({1} : Finset ℤ), {-1, 2}} =
        some (dpll defaultPick {({1} : Finset ℤ), {-1, 2}}) ∧
      (∀ (F2 : CNF) (l : ℤ) (F1' : CNF), unitClauses F2 = ∅ → l ∈ lits F2 →
        unitLoop defaultPick (addLiteral F2 l) = some F1' →
          l.natAbs ∉ vars F1' ∧ (vars F1').card < (vars F2).card) :=
  dpll_terminates defaultPick {({1} : Finset ℤ), {-1, 2}} 4 (by decide)

/-- C3: when the formula has a unit clause, one call to `CNF.apply_unit`
returns `True` and replaces the clause set as follows, for the selected unit
literal `u`: the selected unit clause and every clause containing `u` are
gone, `-u` is erased from every clause containing it (and if that erasure
empties a clause, the empty clause is in the result, so `is_unsat` detects
it), and every remaining clause is unchanged; when the formula has no unit
clause, `apply_unit` returns `False`. -/
theorem applyUnit_rewrites (p : Pick) (F : CNF) :
    (∀ F' : CNF, applyUnit p F = (true, F') →
      ∃ u : ℤ, ({u} : Finset ℤ) ∈ unitClauses F ∧
        ({u} : Finset ℤ) ∉ F' ∧
        (∀ c : Clause, c ∈ F' ↔
          ((c ∈ F ∧ u ∉ c ∧ -u ∉ c) ∨
            ∃ d ∈ F, u ∉ d ∧ -u ∈ d ∧ c = d.erase (-u))) ∧
        ((∃ d ∈ F, u ∉ d ∧ -u ∈ d ∧ d.erase (-u) = ∅) →
          isUnsat F' = true)) ∧
    (applyUnit p F = (false, F) ↔ ∀ c ∈ F, c.card ≠ 1) := by
  constructor
  · intro F' h
    have hne : unitClauses F ≠ ∅ := by
      intro he
      rw [applyUnit, if_pos he] at h
      exact Bool.noConfusion (congrArg Prod.fst h)
    rw [applyUnit, if_neg hne] at h
    obtain ⟨rfl⟩ : propagate F (p.unitLit (unitClauses F)) = F' :=
      congrArg Prod.snd h
    refine ⟨p.unitLit (unitClauses F),
      Finset.mem_filter.2 ⟨(unitLit_spec p hne).1, Finset.card_singleton _⟩,
      ?_, fun c => mem_propagate, ?_⟩
    · rw [mem_propagate]
      rintro (⟨_, hu, _⟩ | ⟨d, _, hu, _, hcd⟩)
      · exact hu (Finset.mem_singleton_self _)
      · exact hu (Finset.mem_of_mem_erase
          (hcd ▸ Finset.mem_singleton_self _))
    · rintro ⟨d, hd, hu, hneg, hemp⟩
      rw [isUnsat_iff, ← hemp]
      exact mem_propagate.2 (Or.inr ⟨d, hd, hu, hneg, rfl⟩)
  · constructor
    · intro h c hc
      have hfst : (applyUnit p F).1 = false := by rw [h]
      have he := applyUnit_fst_false.1 hfst
      rw [unitClauses, Finset.filter_eq_empty_iff] at he
      exact he hc
    · intro h
      have he : unitClauses F = ∅ := Finset.filter_eq_empty_iff.2 h
      rw [applyUnit, if_pos he]

/-- C4: one call to `CNF.apply_pure` keeps exactly the clauses none of whose
literals is pure (a clause survives iff every one of its literals has its
negation somewhere in the formula), and returns `True` iff some clause
contains a pure literal, i.e. iff at least one clause was removed. -/
theorem applyPure_removes_pure (F : CNF) :
    (∀ c : Clause, c ∈ (applyPure F).2 ↔ (c ∈ F ∧ ∀ l ∈ c, -l ∈ lits F)) ∧
      ((applyPure F).1 = true ↔ ∃ c ∈ F, ∃ l ∈ c, -l ∉ lits F) := by
  constructor
  · intro c
    rw [mem_applyPure_snd]
    constructor
    · rintro ⟨hc, hd⟩
      exact ⟨hc, (inter_pureSet_eq_empty hc).1 hd⟩
    · rintro ⟨hc, h⟩
      exact ⟨hc, (inter_pureSet_eq_empty hc).2 h⟩
  · constructor
    · intro ht
      have hss : (applyPure F).2 ⊂ F :=
        lt_of_le_of_ne applyPure_snd_subset
          (fun he => absurd (he ▸ applyPure_card ht) (lt_irrefl _))
      obtain ⟨c, hcF, hck⟩ := Finset.exists_of_ssubset hss
      rw [mem_applyPure_snd, not_and] at hck
      have hd := hck hcF
      obtain ⟨x, hx⟩ := Finset.nonempty_iff_ne_empty.2 hd
      rw [Finset.mem_inter] at hx
      exact ⟨c, hcF, x, hx.1, (mem_pureSet.1 hx.2).2⟩
    · rintro ⟨c, hcF, l, hl, hneg⟩
      have hp : l ∈ pureSet F :=
        mem_pureSet.2 ⟨mem_lits.2 ⟨c, hcF, hl⟩, hneg⟩
      have hck : c ∉ (applyPure F).2 := by
        rw [mem_applyPure_snd]
        rintro ⟨_, hd⟩
        exact Finset.not_mem_empty l (hd ▸ Finset.mem_inter.2 ⟨hl, hp⟩)
      by_contra hf
      have hfst : (applyPure F).1 = false := Bool.eq_false_iff.2 hf
      rw [applyPure_snd_of_fst_false hfst] at hck
      exact hck hcF

/-- C5: the boolean outcome of `CNF.dpll()` does not depend on the arbitrary
unit-clause selection order or on the random split literal: two runs on
formulas with equal clause sets return the same boolean. -/
theorem dpll_outcome_deterministic (p q : Pick) (F G : CNF)
    (hFG : F = G) (h0 : (0:ℤ) ∉ lits F) :
    dpll p F = dpll q G := by
  subst hFG
  have h1 := dpll_eq_sat p F h0
  have h2 := dpll_eq_sat q F h0
  cases hp : dpll p F with
  | true =>
    have := h2.2 (h1.1 hp)
    rw [this]
  | false =>
    cases hq : dpll q F with
    | true =>
      have := h1.2 (h2.1 hq)
      rw [hp] at this
      exact Bool.noConfusion this
    | false => rfl

theorem dpll_outcome_deterministic_witness :
    dpll defaultPick {({1, 2} : Finset ℤ), {-1, -2}} =
      dpll altPick {({1, 2} : Finset ℤ), {-1, -2}} :=
  dpll_outcome_deterministic defaultPick altPick
    {({1, 2} : Finset ℤ), {-1, -2}} {({1, 2} : Finset ℤ), {-1, -2}}
    rfl (by decide)

/-- C6: `CNF.add_literal(l)` builds the formula whose clauses are exactly
those of `F` plus the unit clause containing `l`; the original clause set is
contained unchanged, and the literal set grows by exactly `l`.  In this
embedding `add_literal` is a pure function of `F` (the Python method copies
every clause and never writes to `self`), which is what makes the two
formulas built by `apply_split` independent of each other and of the parent
formula. -/
theorem addLiteral_frame (F : CNF) (l : ℤ) :
    (∀ c : Clause, c ∈ addLiteral F l ↔ (c = {l} ∨ c ∈ F)) ∧
      F ⊆ addLiteral F l ∧ lits (addLiteral F l) = insert l (lits F) :=
  ⟨fun _ => Finset.mem_insert, Finset.subset_insert _ _, lits_addLiteral⟩

/-- C7: on a formula with no unit clause `CNF.apply_unit` reports `False`
and leaves the clause set untouched; on a formula with no pure literal
`CNF.apply_pure` reports `False` and leaves the clause set untouched. -/
theorem simplifiers_no_change (p : Pick) (F : CNF) :
    ((∀ c ∈ F, c.card ≠ 1) → applyUnit p F = (false, F)) ∧
      ((∀ l ∈ lits F, -l ∈ lits F) → applyPure F = (false, F)) := by
  constructor
  · intro h
    have he : unitClauses F = ∅ := Finset.filter_eq_empty_iff.2 h
    rw [applyUnit, if_pos he]
  · intro h
    have he : pureSet F = ∅ := Finset.filter_eq_empty_iff.2
      (fun l hl => not_not_intro (h l hl))
    rw [applyPure, if_pos he]

/-- C8: building a `CNF` from a clause list with duplicate clauses yields
the same clause set, the same clause count and the same `dpll()` decision as
building it from the deduplicated list, and a clause depends only on its
literal set, not on the order the literals are listed in. -/
theorem cnf_dedup_invariant (p : Pick) (L : List Clause) :
    mkCNF L = mkCNF L.dedup ∧ numClauses L = numClauses L.dedup ∧
      dpll p (mkCNF L) = dpll p (mkCNF L.dedup) ∧
      ∀ xs ys : List ℤ, xs.Perm ys → mkClause xs = mkClause ys := by
  have h : mkCNF L = mkCNF L.dedup := by
    rw [mkCNF, mkCNF]
    exact List.toFinset.ext (fun x => (List.mem_dedup).symm)
  exact ⟨h, by rw [numClauses, numClauses, h], by rw [h],
    fun xs ys hp => List.toFinset_eq_of_perm xs ys hp⟩

/-- C9: the Python code prints a message when it meets a non-integer literal
token but does not raise; it then reuses the stale value of the loop
variable `literal` and returns a clause collection with the bad token
silently dropped.  On input `p cnf 2 1` / `1 x 2 0` the parser returns the
clause `(1, 2)` instead of failing, so malformed data IS silently altered
(first conjunct).  The other two malformed shapes named by the claim do
raise: a clause line before any header, and a final clause not terminated by
`0` (second and third conjuncts). -/
theorem parseDimacs_nonint_token_not_rejected :
    parseDimacs ["p cnf 2 1", "1 x 2 0"] =
        .ok ({({1, 2} : Finset ℤ)}, 2, 1) ∧
      parseDimacs ["1 2 0"] = .error (.valueError
        "Error on line 0: Unexpected character found while parsing in INIT state") ∧
      parseDimacs ["p cnf 1 1", "1 2"] = .error (.valueError
        "Error at end of file: Last clause not terminated with 0, literals discarded") :=
  ⟨by decide, by decide, by decide⟩

/-- C10: once the clause set contains an empty clause, one application of
`CNF.apply_unit` or of `CNF.apply_pure` still leaves an empty clause in the
clause set: `is_unsat` can never be made false by either simplification. -/
theorem empty_clause_preserved (p : Pick) (F : CNF)
    (h : isUnsat F = true) :
    isUnsat (applyUnit p F).2 = true ∧ isUnsat (applyPure F).2 = true := by
  have hmem : (∅ : Clause) ∈ F := isUnsat_iff.1 h
  constructor
  · rw [isUnsat_iff]
    by_cases hb : unitClauses F = ∅
    · rw [applyUnit_snd_of_no_unit hb]
      exact hmem
    · obtain ⟨u, _, hsnd⟩ := applyUnit_snd (p := p) hb
      rw [hsnd]
      exact mem_propagate.2 (Or.inl ⟨hmem, Finset.not_mem_empty u,
        Finset.not_mem_empty (-u)⟩)
  · rw [isUnsat_iff, mem_applyPure_snd]
    exact ⟨hmem, Finset.empty_inter _⟩

theorem empty_clause_preserved_witness :
    isUnsat (applyUnit defaultPick {(∅ : Finset ℤ), {1}}).2 = true ∧
      isUnsat (applyPure {(∅ : Finset ℤ), {1}}).2 = true :=
  empty_clause_preserved defaultPick {(∅ : Finset ℤ), {1}} (by decide)

end DpllSat
